import Mathlib

/-!
Verification of the Gomoku board / rule engine of `game_board.py`
(classes `Board` and `Game`).

The Python code is embedded shallowly:

* `Board.states` (a `dict` from move index to player id) becomes an
  association list `List (ℕ × ℤ)` whose keys are kept unique by the
  insertion helper `statesInsert`; `statesGet` is `dict.get(m, -1)`.
* `Board.availables` (a Python `list`) becomes `List ℕ`; the Python
  `list.remove` is `List.erase` (both drop the first occurrence).
* `Board.states_sequence` (a `deque(maxlen=8)`) becomes a `List (ℤ × ℤ)`
  kept at length 8 by `seqPush` (append left, truncate on the right).
* `do_move` returns `Except Board Board`: Python raises `ValueError`
  from `list.remove` when the move is not available, and at that point
  `states` and `states_sequence` have already been mutated; the
  `Except.error` payload is exactly that partially-mutated board.
* The regular-expression pattern counting of `check_forbidden_move`
  uses only literal patterns, so `re.findall` is modelled by
  `countPattern` (leftmost non-overlapping literal matches) and the
  Python substring test `in` by `strContains`.
* `current_state` builds a numpy array of shape
  `(feature_planes + 1, width, height)`; it is modelled entry-wise:
  `planeBase` is the effect of the fancy-indexing assignments,
  `zeroedAt` the history-based zeroing loop, `planeVal` the final value
  of a pre-flip entry, and `current_state` materialises the flipped
  `[:, ::-1, :]` array as nested lists.
-/

namespace AlphaZeroGomoku

/-- Python `self.players = [1, 2]`. -/
def players : List ℤ := [1, 2]

/-- Python `self.feature_planes = 8`. -/
def feature_planes : ℕ := 8

/-- The fields of the Python `Board` object (after `init_board` has run). -/
structure Board where
  width : ℕ
  height : ℕ
  n_in_row : ℕ
  states : List (ℕ × ℤ)
  availables : List ℕ
  current_player : ℤ
  last_move : ℤ
  states_sequence : List (ℤ × ℤ)
deriving Repr, DecidableEq

/-- Python `self.states[move] = player` (dict assignment: the key becomes unique). -/
def statesInsert (s : List (ℕ × ℤ)) (m : ℕ) (p : ℤ) : List (ℕ × ℤ) :=
  (m, p) :: s.filter (fun e => !(e.1 == m))

/-- Python `self.states.get(m, -1)`. -/
def statesGet (s : List (ℕ × ℤ)) (m : ℕ) : ℤ :=
  match s.find? (fun e => e.1 == m) with
  | some e => e.2
  | none => -1

/-- Python `self.states.keys()`. -/
def statesKeys (s : List (ℕ × ℤ)) : List ℕ := s.map Prod.fst

/-- Python `self.players[0] if self.current_player == self.players[1] else self.players[1]`. -/
def otherPlayer (p : ℤ) : ℤ := if p = 2 then 1 else 2

/-- Python `self.states_sequence.appendleft([move, player])` on a `deque(maxlen=8)`. -/
def seqPush (seq : List (ℤ × ℤ)) (m p : ℤ) : List (ℤ × ℤ) :=
  ((m, p) :: seq).take feature_planes

/-- Python `Board.init_board(start_player)`: `none` models the `raise` on a board
smaller than `n_in_row` (and the `IndexError` on `players[start_player]`
for `start_player` outside `{0, 1}`). -/
def init_board (width height n_in_row : ℕ) (start_player : ℕ) : Option Board :=
  if width < n_in_row ∨ height < n_in_row then none
  else if hp : start_player < players.length then
    some { width := width, height := height, n_in_row := n_in_row,
           states := [],
           availables := List.range (width * height),
           current_player := players.get ⟨start_player, hp⟩,
           last_move := -1,
           states_sequence := List.replicate feature_planes (-1, -1) }
  else none

/-- Python `Board.do_move(move)`.  The mutations happen in source order:
`states`, `states_sequence`, then `availables.remove(move)` — which
raises `ValueError` when `move` is not available, leaving the first two
mutations in place (the `Except.error` payload). -/
def do_move (b : Board) (m : ℕ) : Except Board Board :=
  let b1 : Board :=
    { b with states := statesInsert b.states m b.current_player,
             states_sequence := seqPush b.states_sequence (m : ℤ) b.current_player }
  if m ∈ b1.availables then
    Except.ok { b1 with availables := b1.availables.erase m,
                        current_player := otherPlayer b.current_player,
                        last_move := (m : ℤ) }
  else Except.error b1

/-- Python `moved = list(set(range(width * height)) - set(self.availables))`. -/
def moved (b : Board) : List ℕ :=
  (List.range (b.width * b.height)).filter (fun m => !(b.availables.contains m))

/-- The four direction checks of the scan loop of `has_a_winner` at one
occupied cell `m` (horizontal, vertical, diagonal, anti-diagonal). -/
def winAt (b : Board) (m : ℕ) : Bool :=
  let h := m / b.width
  let w := m % b.width
  let player := statesGet b.states m
  (decide ((w : ℤ) ≤ (b.width : ℤ) - (b.n_in_row : ℤ)) &&
     (List.range b.n_in_row).all (fun i => statesGet b.states (m + i) == player)) ||
  (decide ((h : ℤ) ≤ (b.height : ℤ) - (b.n_in_row : ℤ)) &&
     (List.range b.n_in_row).all (fun i => statesGet b.states (m + i * b.width) == player)) ||
  (decide ((w : ℤ) ≤ (b.width : ℤ) - (b.n_in_row : ℤ)) &&
     decide ((h : ℤ) ≤ (b.height : ℤ) - (b.n_in_row : ℤ)) &&
     (List.range b.n_in_row).all (fun i => statesGet b.states (m + i * (b.width + 1)) == player)) ||
  (decide ((b.n_in_row : ℤ) - 1 ≤ (w : ℤ)) &&
     decide ((h : ℤ) ≤ (b.height : ℤ) - (b.n_in_row : ℤ)) &&
     (List.range b.n_in_row).all (fun i => statesGet b.states (m + i * (b.width - 1)) == player))

/-- The symbol of one board cell in a `get_line` string:
`'X' if states[pos] == players[0] else 'O'` when occupied, `'.'` otherwise. -/
def cellChar (b : Board) (pos : ℕ) : Char :=
  match b.states.find? (fun e => e.1 == pos) with
  | some e => if e.2 = 1 then 'X' else 'O'
  | none => '.'

/-- One of the two `while` loops of `get_line`: the symbols at
`(x + dx, y + dy), (x + 2 dx, y + 2 dy), …` while in bounds, nearest first. -/
def walkDir (b : Board) (x y dx dy : ℤ) : ℕ → List Char
  | 0 => []
  | fuel + 1 =>
    let nx := x + dx
    let ny := y + dy
    if 0 ≤ nx ∧ nx < (b.width : ℤ) ∧ 0 ≤ ny ∧ ny < (b.height : ℤ) then
      cellChar b (ny * (b.width : ℤ) + nx).toNat :: walkDir b nx ny dx dy fuel
    else []

/-- Python `Board.get_line(move, dx, dy)`: negative walk (built by prepending,
hence reversed), the move's own symbol, then the positive walk.
`width + height` steps of fuel strictly exceed any in-bounds walk. -/
def get_line (b : Board) (move : ℕ) (dx dy : ℤ) : List Char :=
  let x : ℤ := (move % b.width : ℕ)
  let y : ℤ := (move / b.width : ℕ)
  (walkDir b x y (-dx) (-dy) (b.width + b.height)).reverse ++
    [if statesGet b.states move = 1 then 'X' else 'O'] ++
    walkDir b x y dx dy (b.width + b.height)

/-- Structural scanner behind `countPattern`: when `skip` is positive the
scanner is still inside the previous match and only moves forward. -/
def countPatternGo (pat : List Char) : List Char → ℕ → ℕ
  | [], _ => 0
  | _ :: t, skip + 1 => countPatternGo pat t skip
  | a :: t, 0 =>
    if pat.isPrefixOf (a :: t) ∧ pat.length ≠ 0 then
      1 + countPatternGo pat t (pat.length - 1)
    else countPatternGo pat t 0

/-- Python `len(re.findall(pattern, line))` for a literal (regex-escaped)
pattern: leftmost, non-overlapping matches (after a match the scan
resumes right after its end, i.e. skips `pat.length - 1` further
characters). -/
def countPattern (l pat : List Char) : ℕ := countPatternGo pat l 0

/-- The Python substring test `pat in line`. -/
def strContains : List Char → List Char → Bool
  | [], pat => pat.isEmpty
  | a :: t, pat => pat.isPrefixOf (a :: t) || strContains t pat

/-- Python `Board.check_forbidden_move(move, player)`: overline
(`target * (n_in_row + 1)` as a substring, with an early `return True`
equivalent to `any`), then the summed open-four and open-three pattern
counts over the four direction lines. -/
def check_forbidden_move (b : Board) (move : ℕ) (player : ℤ) : Bool :=
  let target : Char := if player = 1 then 'X' else 'O'
  let lines := [((1 : ℤ), (0 : ℤ)), (0, 1), (1, 1), (1, -1)].map
    (fun d => get_line b move d.1 d.2)
  if lines.any (fun l => strContains l (List.replicate (b.n_in_row + 1) target)) then
    true
  else
    let open_four := (lines.map (fun l =>
      countPattern l ('.' :: List.replicate 4 target ++ ['.']))).sum
    let open_three := (lines.map (fun l =>
      countPattern l ('.' :: List.replicate 3 target ++ ['.']) +
      countPattern l ('.' :: target :: target :: '.' :: target :: ['.']) +
      countPattern l ('.' :: target :: '.' :: target :: target :: ['.']))).sum
    if 2 ≤ open_four then true
    else if 2 ≤ open_three then true
    else false

/-- Python `Board.has_a_winner()`: the early size guard, the scan over occupied
cells (first hit wins, `states[m]` is the reported winner), then the
forbidden-move check for the first mover (`players[0] = 1`), which
reports `players[1] = 2` as winner. -/
def has_a_winner (b : Board) : Bool × ℤ :=
  if (moved b).length < b.n_in_row then (false, -1)
  else
    match (moved b).find? (winAt b) with
    | some m => (true, statesGet b.states m)
    | none =>
      if b.last_move ≠ -1 then
        let player := statesGet b.states b.last_move.toNat
        if player = 1 then
          if check_forbidden_move b b.last_move.toNat player then (true, 2)
          else (false, -1)
        else (false, -1)
      else (false, -1)

/-- Python `Board.game_end()`. -/
def game_end (b : Board) : Bool × ℤ :=
  match has_a_winner b with
  | (true, winner) => (true, winner)
  | (false, _) => if b.availables.isEmpty then (true, -1) else (false, -1)

/-- Python `Board.move_to_location(move)`. -/
def move_to_location (b : Board) (move : ℕ) : List ℕ :=
  [move / b.width, move % b.width]

/-- Python `Board.location_to_move(location)`: `-1` unless the list has exactly
two entries and `h * width + w` lies in `range(width * height)`. -/
def location_to_move (b : Board) (location : List ℤ) : ℤ :=
  match location with
  | [h, w] =>
    let move := h * (b.width : ℤ) + w
    if 0 ≤ move ∧ move < ((b.width * b.height : ℕ) : ℤ) then move else -1
  | _ => -1

/-- Python `moves[players != self.current_player]` (opponent-owned cells). -/
def oppoMoves (b : Board) : List ℕ :=
  (b.states.filter (fun e => !(e.2 == b.current_player))).map Prod.fst

/-- Python `moves[players == self.current_player]` (current-player-owned cells). -/
def currMoves (b : Board) : List ℕ :=
  (b.states.filter (fun e => e.2 == b.current_player)).map Prod.fst

/-- The indices visited by `range(0, len(self.states_sequence) - 2, 2)`. -/
def seqZeroIdx (b : Board) : List ℕ :=
  (List.range (b.states_sequence.length - 2)).filter (fun j => j % 2 == 0)

/-- The value written into pre-flip entry `(r, c)` of plane `i` by the
fancy-indexing assignments of `current_state` (zero when `self.states`
is empty, since the whole block is guarded by `if self.states:`). -/
def planeBase (b : Board) (i r c : ℕ) : ℚ :=
  if b.states.isEmpty then 0
  else if i % 2 = 0 then
    if (oppoMoves b).any (fun m => m / b.width == r && m % b.height == c) then 1 else 0
  else
    if (currMoves b).any (fun m => m / b.width == r && m % b.height == c) then 1 else 0

/-- Whether the `states_sequence` zeroing loop of `current_state` writes a
`0.` into pre-flip entry `(r, c)` of plane `i`.  In every board produced
by `init_board`/`do_move` the recorded real moves are nonnegative, so
the `Int.toNat` coercion is exact. -/
def zeroedAt (b : Board) (i r c : ℕ) : Bool :=
  (seqZeroIdx b).any (fun j =>
    j == i &&
      (match b.states_sequence.get? j with
       | some mp =>
         !(mp.2 == -1) && decide (j < feature_planes) &&
           (mp.1.toNat / b.width == r) && (mp.1.toNat % b.height == c)
       | none => false))

/-- The final pre-flip value of entry `(r, c)` of plane `i`: the colour
plane (`i = feature_planes`) is all ones exactly when `len(states)` is
even; other planes get their indicator value unless the history loop
zeroed them. -/
def planeVal (b : Board) (i r c : ℕ) : ℚ :=
  if i = feature_planes then
    if b.states.length % 2 = 0 then 1 else 0
  else if zeroedAt b i r c then 0
  else planeBase b i r c

/-- Python `Board.current_state()`: the `(feature_planes + 1, width, height)`
array, with axis 1 reversed (`square_state[:, ::-1, :]`). -/
def current_state (b : Board) : List (List (List ℚ)) :=
  (List.range (feature_planes + 1)).map (fun i =>
    (List.range b.width).map (fun a =>
      (List.range b.height).map (fun c =>
        planeVal b i (b.width - 1 - a) c)))

/-- Entry `(i, a, c)` of an encoded state. -/
def entry (s : List (List (List ℚ))) (i a c : ℕ) : ℚ :=
  ((s.getD i []).getD a []).getD c 0

/-- The outcome labels of `Game.start_self_play`: `winners_z` is zero,
then set to `±1` against the recorded movers when a winner exists. -/
def winners_z (current_players : List ℤ) (winner : ℤ) : List ℤ :=
  current_players.map (fun p => if winner = -1 then 0 else if p = winner then 1 else -1)

/-- The `while True` loop of `Game.start_self_play`, driven by an
abstract agent (`player.get_action`) and bounded by fuel: record the
mover, apply the move, stop when `game_end` reports the end.  `none`
models a run that raises (illegal agent move) or does not finish within
the fuel. -/
def selfPlayLoop (agent : Board → ℕ) : ℕ → Board → List ℤ → Option (ℤ × List ℤ)
  | 0, _, _ => none
  | fuel + 1, b, movers =>
    let m := agent b
    let movers2 := movers ++ [b.current_player]
    match do_move b m with
    | Except.error _ => none
    | Except.ok b2 =>
      match game_end b2 with
      | (true, winner) => some (winner, movers2)
      | (false, _) => selfPlayLoop agent fuel b2 movers2

/-- Python `Game.start_self_play(player)`: initialise the board (default
`start_player = 0`), run the loop, and label the recorded movers with
`winners_z`.  Returns `(winner, recorded movers, outcome labels)`. -/
def start_self_play (agent : Board → ℕ) (fuel width height n_in_row : ℕ) :
    Option (ℤ × List ℤ × List ℤ) :=
  (init_board width height n_in_row 0).bind (fun b0 =>
    (selfPlayLoop agent fuel b0 []).map (fun r => (r.1, r.2, winners_z r.2 r.1)))

/-! ### Board constructions used in the theorems -/

/-- The available list that is the complement of a key list in `range N`
(the coherence `availables = {0..N-1} \ keys(states)` maintained by
`init_board`/`do_move`). -/
def complementAvail (N : ℕ) (keys : List ℕ) : List ℕ :=
  (List.range N).filter (fun m => !(keys.contains m))

/-- The initial `states_sequence`. -/
def initSeq : List (ℤ × ℤ) := List.replicate feature_planes (-1, -1)

/-- A board state whose `availables` is coherent with its `states`. -/
def mkBoard (w h n : ℕ) (cells : List (ℕ × ℤ)) (cp lm : ℤ)
    (seq : List (ℤ × ℤ)) : Board :=
  { width := w, height := h, n_in_row := n, states := cells,
    availables := complementAvail (w * h) (cells.map Prod.fst),
    current_player := cp, last_move := lm, states_sequence := seq }

/-- A 15×15 board whose only stones are one player's stones on the
listed cells. -/
def runBoard (p : ℤ) (cells : List ℕ) (cp lm : ℤ) (seq : List (ℤ × ℤ)) : Board :=
  mkBoard 15 15 5 (cells.map (fun c => (c, p))) cp lm seq

/-- Board 15×15: player 1 has six in a row on cells 0–5 (an overline),
player 2 has five scattered stones on row 2; player 1 has just played
cell 5. -/
def bOver : Board :=
  mkBoard 15 15 5
    [(0, 1), (1, 1), (2, 1), (3, 1), (4, 1), (5, 1),
     (30, 2), (32, 2), (34, 2), (36, 2), (38, 2)] 2 5
    [(5, 1), (38, 2), (4, 1), (36, 2), (3, 1), (34, 2), (2, 1), (32, 2)]

/-- Board 15×15 after a single move: player 1 played cell 0. -/
def bC2 : Board :=
  mkBoard 15 15 5 [(0, 1)] 2 0 (((0 : ℤ), (1 : ℤ)) :: List.replicate 7 (-1, -1))

/-- An empty non-square 3×4 board. -/
def bC4 : Board := mkBoard 3 4 3 [] 1 (-1) initSeq

/-- An empty 15×15 board. -/
def b15 : Board := mkBoard 15 15 5 [] 1 (-1) initSeq

/-- An empty 3×3 board with `n_in_row = 3` (as built by `init_board`). -/
def b33 : Board := mkBoard 3 3 3 [] 1 (-1) initSeq

/-- A 3×3 board with one stone, used to exercise the illegal-move path. -/
def bOcc : Board :=
  mkBoard 3 3 3 [(0, 1)] 2 0 (((0 : ℤ), (1 : ℤ)) :: List.replicate 7 (-1, -1))

/-! ### Helper lemmas -/

theorem statesGet_cons_self (s : List (ℕ × ℤ)) (m : ℕ) (p : ℤ) :
    statesGet ((m, p) :: s) m = p := by
  simp [statesGet, List.find?_cons]

theorem statesGet_insert_self (s : List (ℕ × ℤ)) (m : ℕ) (p : ℤ) :
    statesGet (statesInsert s m p) m = p :=
  statesGet_cons_self _ m p

theorem statesGet_const_of_mem (cells : List ℕ) (p : ℤ) (m : ℕ) (hm : m ∈ cells) :
    statesGet (cells.map (fun c => (c, p))) m = p := by
  induction cells with
  | nil => cases hm
  | cons a t ih =>
    rcases List.mem_cons.mp hm with h | h
    · subst h; simp [statesGet, List.find?_cons]
    · by_cases hav : a = m
      · subst hav; simp [statesGet, List.find?_cons]
      · simpa [statesGet, List.find?_cons, hav] using ih h

theorem mem_complementAvail (N : ℕ) (keys : List ℕ) (m : ℕ) :
    m ∈ complementAvail N keys ↔ m < N ∧ m ∉ keys := by
  simp [complementAvail, List.mem_filter, List.elem_iff, List.mem_range]

theorem nodup_complementAvail (N : ℕ) (keys : List ℕ) :
    (complementAvail N keys).Nodup :=
  (List.nodup_range N).filter _

/-- On a coherent board, the `moved` list is the filtered enumeration of
the cells in the key list. -/
theorem moved_eq_filter (b : Board) (keys : List ℕ)
    (hav : b.availables = complementAvail (b.width * b.height) keys) :
    moved b = (List.range (b.width * b.height)).filter (fun m => keys.contains m) := by
  unfold moved
  refine List.filter_congr (fun m hm => ?_)
  rcases List.mem_range.mp hm with hlt
  rw [hav]
  by_cases hk : m ∈ keys
  · have : m ∉ complementAvail (b.width * b.height) keys := by
      rw [mem_complementAvail]; tauto
    simp [List.elem_iff, this, hk]
  · have : m ∈ complementAvail (b.width * b.height) keys := by
      rw [mem_complementAvail]; exact ⟨hlt, hk⟩
    simp [List.elem_iff, this, hk]

theorem mem_filter_range_contains (N : ℕ) (keys : List ℕ) (m : ℕ) :
    m ∈ (List.range N).filter (fun m => keys.contains m) ↔ m < N ∧ m ∈ keys := by
  simp [List.mem_filter, List.elem_iff, List.mem_range]

theorem length_filter_range_contains (N : ℕ) (keys : List ℕ)
    (hnd : keys.Nodup) (hbd : ∀ c ∈ keys, c < N) :
    ((List.range N).filter (fun m => keys.contains m)).length = keys.length := by
  have hperm : List.Perm ((List.range N).filter (fun m => keys.contains m)) keys := by
    refine (List.perm_ext_iff_of_nodup ((List.nodup_range N).filter _) hnd).mpr ?_
    intro a
    rw [mem_filter_range_contains]
    exact ⟨fun h => h.2, fun h => ⟨hbd a h, h⟩⟩
  exact hperm.length_eq

/-- If the scan of `has_a_winner` can see enough occupied cells, finds a
winning cell, and every winning cell it can find is owned by `p`, then
`has_a_winner` reports `(true, p)`. -/
theorem has_a_winner_pos (b : Board) (p : ℤ)
    (hlen : b.n_in_row ≤ (moved b).length)
    (hex : ∃ m ∈ moved b, winAt b m = true)
    (hall : ∀ m ∈ moved b, winAt b m = true → statesGet b.states m = p) :
    has_a_winner b = (true, p) := by
  unfold has_a_winner
  rw [if_neg (by omega)]
  have hsome : ((moved b).find? (winAt b)).isSome := by
    rw [List.find?_isSome]; exact hex
  rcases Option.isSome_iff_exists.mp hsome with ⟨m, hm⟩
  rw [hm]
  have h1 : winAt b m = true := List.find?_some hm
  have h2 : m ∈ moved b := List.mem_of_find?_eq_some hm
  show (true, statesGet b.states m) = (true, p)
  rw [hall m h2 h1]

theorem all_range_true (n : ℕ) (f : ℕ → Bool) (h : ∀ i < n, f i = true) :
    (List.range n).all f = true := by
  rw [List.all_eq_true]
  exact fun i hi => h i (List.mem_range.mp hi)

/-! ### Claim theorems -/

/-- Claim C10: `do_move` on a move that is not available is not atomic —
it returns the `ValueError` path (`Except.error`) only after `states[m]`
has been overwritten with `current_player` and `(m, current_player)` has
been pushed onto the history deque, while `availables`,
`current_player` and `last_move` are unchanged. -/
theorem claim_C10_do_move_error (b : Board) (m : ℕ) (hm : m ∉ b.availables) :
    ∃ be, do_move b m = Except.error be ∧
      statesGet be.states m = b.current_player ∧
      be.states_sequence =
        ((m : ℤ), b.current_player) :: b.states_sequence.take (feature_planes - 1) ∧
      be.availables = b.availables ∧
      be.current_player = b.current_player ∧
      be.last_move = b.last_move := by
  unfold do_move
  dsimp only
  rw [if_neg hm]
  exact ⟨_, rfl, statesGet_insert_self _ m _, rfl, rfl, rfl, rfl⟩

/-- Claim C10 witness: playing the already-occupied cell 0 of `bOcc`. -/
theorem claim_C10_witness :
    ∃ be, do_move bOcc 0 = Except.error be ∧
      statesGet be.states 0 = bOcc.current_player ∧
      be.states_sequence =
        ((0 : ℤ), bOcc.current_player) :: bOcc.states_sequence.take (feature_planes - 1) ∧
      be.availables = bOcc.availables ∧
      be.current_player = bOcc.current_player ∧
      be.last_move = bOcc.last_move :=
  claim_C10_do_move_error bOcc 0 (by decide)

/-- Claim C6: after `do_move m` on an available move, `m` is no longer
available, `states[m]` is the player who moved, `current_player` has
flipped to the other player, and `last_move = m`. -/
theorem claim_C6_do_move (b : Board) (m : ℕ) (hm : m ∈ b.availables)
    (hnd : b.availables.Nodup)
    (hcp : b.current_player = 1 ∨ b.current_player = 2) :
    ∃ b2, do_move b m = Except.ok b2 ∧
      m ∉ b2.availables ∧
      statesGet b2.states m = b.current_player ∧
      b2.current_player ≠ b.current_player ∧
      (b.current_player = 1 → b2.current_player = 2) ∧
      (b.current_player = 2 → b2.current_player = 1) ∧
      b2.last_move = (m : ℤ) := by
  unfold do_move
  dsimp only
  rw [if_pos hm]
  refine ⟨_, rfl, ?_, ?_, ?_, ?_, ?_, rfl⟩
  · exact hnd.not_mem_erase
  · exact statesGet_insert_self _ m _
  · show otherPlayer b.current_player ≠ b.current_player
    rcases hcp with h | h <;> simp [otherPlayer, h]
  · intro h
    show otherPlayer b.current_player = 2
    simp [otherPlayer, h]
  · intro h
    show otherPlayer b.current_player = 1
    simp [otherPlayer, h]

/-- Claim C6 witness: the first move on an empty 3×3 board. -/
theorem claim_C6_witness :
    ∃ b2, do_move b33 0 = Except.ok b2 ∧
      (0 : ℕ) ∉ b2.availables ∧
      statesGet b2.states 0 = b33.current_player ∧
      b2.current_player ≠ b33.current_player ∧
      (b33.current_player = 1 → b2.current_player = 2) ∧
      (b33.current_player = 2 → b2.current_player = 1) ∧
      b2.last_move = ((0 : ℕ) : ℤ) :=
  claim_C6_do_move b33 0 (by decide) (by decide) (Or.inl rfl)

/-- Claim C3 counterexample: on the default 15×15 board the location
`(0, 15)` has its column out of range (`15 ∉ [0, 15)`), yet
`location_to_move` returns the move number `15` (the cell `(1, 0)`),
not the sentinel `-1`. -/
theorem claim_C3_counterexample :
    ¬((15 : ℤ) < (b15.width : ℤ)) ∧
    location_to_move b15 [0, 15] = 15 ∧
    location_to_move b15 [0, 15] ≠ -1 := by decide

/-- Claim C3 (amended): `location_to_move` returns the sentinel `-1`
exactly when the linear index `row·width + col` falls outside
`[0, width·height)` — it does not validate the two coordinates
separately.  In particular, when the column is in range and the row is
out of range the sentinel is returned, but an out-of-range column can
map onto a different in-range cell.  The function is pure: it never
fails and never changes the board. -/
theorem claim_C3_amended (b : Board) (h w : ℤ) :
    (location_to_move b [h, w] = -1 ↔
      (h * b.width + w < 0 ∨ ((b.width * b.height : ℕ) : ℤ) ≤ h * b.width + w)) ∧
    (0 ≤ w → w < (b.width : ℤ) → (h < 0 ∨ (b.height : ℤ) ≤ h) →
      location_to_move b [h, w] = -1) := by
  have hred : location_to_move b [h, w] =
      (if 0 ≤ h * (b.width : ℤ) + w ∧
          h * (b.width : ℤ) + w < ((b.width * b.height : ℕ) : ℤ)
       then h * (b.width : ℤ) + w else -1) := rfl
  constructor
  · rw [hred]
    split_ifs with hin
    · exact ⟨fun habs => by omega, fun habs => by omega⟩
    · exact ⟨fun _ => by omega, fun _ => rfl⟩
  · intro hw0 hww hrow
    rw [hred]
    refine if_neg ?_
    have hWnn : (0 : ℤ) ≤ (b.width : ℤ) := by positivity
    rintro ⟨h1, h2⟩
    push_cast at h2
    rcases hrow with hneg | hbig
    · have hmul : h * (b.width : ℤ) ≤ -1 * (b.width : ℤ) :=
        mul_le_mul_of_nonneg_right (by omega) hWnn
      omega
    · have hmul : (b.height : ℤ) * (b.width : ℤ) ≤ h * (b.width : ℤ) :=
        mul_le_mul_of_nonneg_right hbig hWnn
      nlinarith

/-- Claim C3 amended witness: `(-1, 0)` (row out of range, column in
range) maps to the sentinel on the 15×15 board. -/
theorem claim_C3_witness : location_to_move b15 [-1, 0] = -1 :=
  (claim_C3_amended b15 (-1) 0).2 (by decide) (by decide) (Or.inl (by decide))

/-- Claim C1 counterexample: on `bOver` the first mover (player 1) has
six consecutive own stones on cells 0–5 (an overline, `n_in_row + 1`).
The claim predicts the end check reports player 2 as winner, but
`has_a_winner` and `game_end` report `(true, 1)`: the five-in-a-row
scan finds the contained five-run and returns player 1 before the
forbidden-move logic is ever consulted. -/
theorem claim_C1_counterexample :
    statesGet bOver.states 0 = 1 ∧ statesGet bOver.states 1 = 1 ∧
    statesGet bOver.states 2 = 1 ∧ statesGet bOver.states 3 = 1 ∧
    statesGet bOver.states 4 = 1 ∧ statesGet bOver.states 5 = 1 ∧
    bOver.n_in_row = 5 ∧
    has_a_winner bOver = (true, 1) ∧
    game_end bOver = (true, 1) ∧
    ¬(has_a_winner bOver = (true, 2)) := by decide

/-- Claim C2 counterexample: on `bC2` exactly one move has been played
(cell 0 by player 1) and player 2 is to move, so cell 0 is occupied by
the opponent of `current_player`.  Plane 0 is even, so by the claim it
should be the full opponent-occupancy indicator and carry a 1 for cell
0 (output row 14, column 0 after the row flip); `current_state`
instead zeroes that entry via the history-deque loop. -/
theorem claim_C2_counterexample :
    statesGet bC2.states 0 = 1 ∧ bC2.current_player = 2 ∧
    bC2.states.length = 1 ∧
    entry (current_state bC2) 0 14 0 = 0 ∧ ¬((0 : ℚ) = 1) := by decide

/-- Claim C4 counterexample: on the empty 3×4 board the encoding has 9
planes of shape `width × height = 3 × 4` (3 rows), not
`height × width = 4 × 3` as the claim states. -/
theorem claim_C4_counterexample :
    bC4.width = 3 ∧ bC4.height = 4 ∧
    (current_state bC4).length = feature_planes + 1 ∧
    ((current_state bC4).getD 0 []).length = 3 ∧
    ¬(((current_state bC4).getD 0 []).length = bC4.height) := by decide

/-- Claim C4 (amended): `current_state` returns `feature_planes + 1 = 9`
planes, each of shape `width × height` (`width` rows of `height`
entries) — not `height × width`; the two coincide only on square
boards, which is what the program actually configures.  The hypotheses
delimit the states on which the source's numpy indexing is in bounds
(empty states, or a square board with in-range recorded moves). -/
theorem claim_C4_amended (b : Board)
    (hsq : b.states = [] ∨ b.width = b.height)
    (hkeys : ∀ m ∈ statesKeys b.states, m < b.width * b.height)
    (hseq : ∀ e ∈ b.states_sequence, e.2 ≠ -1 →
      0 ≤ e.1 ∧ e.1 < ((b.width * b.height : ℕ) : ℤ)) :
    (current_state b).length = feature_planes + 1 ∧
    ∀ pl ∈ current_state b, pl.length = b.width ∧ ∀ row ∈ pl, row.length = b.height := by
  constructor
  · simp [current_state]
  · intro pl hpl
    rcases List.mem_map.mp hpl with ⟨i, hi, rfl⟩
    refine ⟨by simp, ?_⟩
    intro row hrow
    rcases List.mem_map.mp hrow with ⟨a, ha, rfl⟩
    simp

/-- Claim C4 amended witness: the empty 15×15 board has 9 planes. -/
theorem claim_C4_witness : (current_state b15).length = feature_planes + 1 :=
  (claim_C4_amended b15 (Or.inl rfl) (by decide) (by decide)).1

/-! ### Reachable board states and the partition invariant (C7) -/

/-- The board states actually produced by the program: `init_board`
followed by any number of successful `do_move` calls. -/
inductive Reachable : Board → Prop where
  | init (w h n sp : ℕ) (b : Board) : init_board w h n sp = some b → Reachable b
  | step (b : Board) (m : ℕ) (b2 : Board) :
      Reachable b → do_move b m = Except.ok b2 → Reachable b2

/-- The strengthened induction invariant for reachable boards. -/
def BoardInv (b : Board) : Prop :=
  b.availables.Nodup ∧
  (b.current_player = 1 ∨ b.current_player = 2) ∧
  (∀ x, (x ∈ statesKeys b.states ∨ x ∈ b.availables) ↔ x < b.width * b.height) ∧
  (∀ x, ¬(x ∈ statesKeys b.states ∧ x ∈ b.availables))

theorem mem_keys_insert (s : List (ℕ × ℤ)) (m : ℕ) (p : ℤ) (x : ℕ) :
    x ∈ statesKeys (statesInsert s m p) ↔ x = m ∨ (x ∈ statesKeys s ∧ x ≠ m) := by
  simp only [statesKeys, statesInsert, List.map_cons, List.mem_cons, List.mem_map,
    List.mem_filter]
  constructor
  · rintro (rfl | ⟨e, ⟨he, hne⟩, rfl⟩)
    · exact Or.inl rfl
    · right
      refine ⟨⟨e, he, rfl⟩, ?_⟩
      simpa using hne
  · rintro (rfl | ⟨⟨e, he, rfl⟩, hne⟩)
    · exact Or.inl rfl
    · right
      exact ⟨e, ⟨he, by simpa using hne⟩, rfl⟩

theorem reachable_inv (b : Board) (hb : Reachable b) : BoardInv b := by
  induction hb with
  | init w h n sp b hinit =>
    unfold init_board at hinit
    by_cases h1 : w < n ∨ h < n
    · rw [if_pos h1] at hinit; cases hinit
    rw [if_neg h1] at hinit
    by_cases hp : sp < players.length
    · rw [dif_pos hp] at hinit
      cases hinit
      refine ⟨List.nodup_range _, ?_, ?_, ?_⟩
      · have hsp : sp = 0 ∨ sp = 1 := by
          have : players.length = 2 := rfl
          omega
        rcases hsp with rfl | rfl
        · exact Or.inl rfl
        · exact Or.inr rfl
      · intro x
        simp [statesKeys, List.mem_range]
      · intro x
        simp [statesKeys]
    · rw [dif_neg hp] at hinit; cases hinit
  | step b m b2 _ hdm ih =>
    obtain ⟨hnd, hcp, hun, hdis⟩ := ih
    unfold do_move at hdm
    dsimp only at hdm
    by_cases hmem : m ∈ b.availables
    · rw [if_pos hmem] at hdm
      cases hdm
      have hmwh : m < b.width * b.height := (hun m).mp (Or.inr hmem)
      refine ⟨hnd.erase m, ?_, ?_, ?_⟩
      · unfold otherPlayer
        split
        · exact Or.inl rfl
        · exact Or.inr rfl
      · intro x
        show (x ∈ statesKeys (statesInsert b.states m b.current_player) ∨
          x ∈ b.availables.erase m) ↔ x < b.width * b.height
        rw [mem_keys_insert, hnd.mem_erase_iff]
        have h1 := hun x
        have h2 := hdis x
        by_cases hxm : x = m
        · subst hxm; tauto
        · tauto
      · intro x
        show ¬(x ∈ statesKeys (statesInsert b.states m b.current_player) ∧
          x ∈ b.availables.erase m)
        rw [mem_keys_insert, hnd.mem_erase_iff]
        have h2 := hdis x
        tauto
    · rw [if_neg hmem] at hdm
      cases hdm

/-- Claim C7: after `init_board` and after every `do_move` whose
argument was available (i.e. on every reachable board state), the
occupied keys of `states` and the `availables` list are disjoint and
together are exactly `{0 .. width·height − 1}`. -/
theorem claim_C7_partition (b : Board) (hb : Reachable b) :
    (∀ x, (x ∈ statesKeys b.states ∨ x ∈ b.availables) ↔ x < b.width * b.height) ∧
    (∀ x, ¬(x ∈ statesKeys b.states ∧ x ∈ b.availables)) :=
  ⟨(reachable_inv b hb).2.2.1, (reachable_inv b hb).2.2.2⟩

/-- Claim C7 witness: the partition on the freshly initialised 3×3 board. -/
theorem claim_C7_witness :
    (∀ x, (x ∈ statesKeys b33.states ∨ x ∈ b33.availables) ↔ x < b33.width * b33.height) ∧
    (∀ x, ¬(x ∈ statesKeys b33.states ∧ x ∈ b33.availables)) :=
  claim_C7_partition b33 (Reachable.init 3 3 3 0 b33 (by decide))

/-! ### Self-play outcome labels (C5) -/

theorem getD_map_lt (f : ℤ → ℤ) (l : List ℤ) (i : ℕ) (h : i < l.length) (d e : ℤ) :
    (l.map f).getD i d = f (l.getD i e) := by
  simp [List.getD, List.getElem?_map, List.getElem?_eq_getElem h]

/-- Claim C5: in every completed self-play episode, each recorded triple
is labelled `+1` when its recorded mover (the `current_player` captured
before the ply was applied) equals the winner, `-1` when a winner
exists and differs, and `0` for every triple on a draw. -/
theorem claim_C5_labels (agent : Board → ℕ) (fuel width height n_in_row : ℕ)
    (win : ℤ) (ms zs : List ℤ)
    (hrun : start_self_play agent fuel width height n_in_row = some (win, ms, zs)) :
    zs.length = ms.length ∧
    ∀ i, i < ms.length →
      (win = -1 → zs.getD i 0 = 0) ∧
      (win ≠ -1 → ms.getD i 0 = win → zs.getD i 0 = 1) ∧
      (win ≠ -1 → ms.getD i 0 ≠ win → zs.getD i 0 = -1) := by
  unfold start_self_play at hrun
  rcases Option.bind_eq_some.mp hrun with ⟨b0, _, hmap⟩
  rcases Option.map_eq_some'.mp hmap with ⟨r, _, heq⟩
  have hw : r.1 = win := congrArg Prod.fst heq
  have hms : r.2 = ms := congrArg (fun t => t.2.1) heq
  have hzs : winners_z r.2 r.1 = zs := congrArg (fun t => t.2.2) heq
  subst hw hms
  rw [← hzs]
  constructor
  · simp [winners_z]
  · intro i hi
    rw [winners_z, getD_map_lt _ _ _ hi 0 0]
    refine ⟨fun h0 => by rw [if_pos h0], fun h0 h1 => ?_, fun h0 h1 => ?_⟩
    · rw [if_neg h0, if_pos h1]
    · rw [if_neg h0, if_neg h1]

/-- The deterministic agent that always plays the first available move. -/
def agentFirst : Board → ℕ := fun b => b.availables.headD 0

/-- Claim C5 witness: the first-available-move self-play on a 3×3 board
with `n_in_row = 3` ends with player 1 winning after 7 plies; movers
`[1,2,1,2,1,2,1]` are labelled `[1,-1,1,-1,1,-1,1]`. -/
theorem claim_C5_witness :
    ([(1 : ℤ), -1, 1, -1, 1, -1, 1]).length = ([(1 : ℤ), 2, 1, 2, 1, 2, 1]).length ∧
    ∀ i, i < ([(1 : ℤ), 2, 1, 2, 1, 2, 1]).length →
      ((1 : ℤ) = -1 → ([(1 : ℤ), -1, 1, -1, 1, -1, 1]).getD i 0 = 0) ∧
      ((1 : ℤ) ≠ -1 → ([(1 : ℤ), 2, 1, 2, 1, 2, 1]).getD i 0 = 1 →
        ([(1 : ℤ), -1, 1, -1, 1, -1, 1]).getD i 0 = 1) ∧
      ((1 : ℤ) ≠ -1 → ([(1 : ℤ), 2, 1, 2, 1, 2, 1]).getD i 0 ≠ 1 →
        ([(1 : ℤ), -1, 1, -1, 1, -1, 1]).getD i 0 = -1) :=
  claim_C5_labels agentFirst 20 3 3 3 1 [1, 2, 1, 2, 1, 2, 1]
    [1, -1, 1, -1, 1, -1, 1] (by decide)

/-! ### Draw detection (C9) -/

/-- The four scan directions. -/
def dirList : List (ℤ × ℤ) := [(1, 0), (0, 1), (1, 1), (1, -1)]

/-- A semantic `n_in_row`-run: some direction, some in-bounds starting
coordinate, and some player owning all `n_in_row` consecutive cells. -/
def RunExists (b : Board) : Prop :=
  ∃ d ∈ dirList, ∃ x ∈ List.range b.width, ∃ y ∈ List.range b.height, ∃ p ∈ players,
    ∀ i ∈ List.range b.n_in_row,
      0 ≤ (x : ℤ) + i * d.1 ∧ (x : ℤ) + i * d.1 < (b.width : ℤ) ∧
      0 ≤ (y : ℤ) + i * d.2 ∧ (y : ℤ) + i * d.2 < (b.height : ℤ) ∧
      statesGet b.states
        (((y : ℤ) + i * d.2) * (b.width : ℤ) + ((x : ℤ) + i * d.1)).toNat = p

instance decidableRunExists (b : Board) : Decidable (RunExists b) := by
  unfold RunExists
  infer_instance

theorem toNat_eq_of (z : ℤ) (k : ℕ) (h : z = (k : ℤ)) : z.toNat = k := by
  subst h
  exact Int.toNat_natCast k

/-- Soundness of the scan predicate: any cell at which `winAt` fires on
an in-range, player-owned board yields a semantic run. -/
theorem runExists_of_winAt (b : Board) (m : ℕ)
    (hm : m < b.width * b.height)
    (hocc : statesGet b.states m = 1 ∨ statesGet b.states m = 2)
    (hwin : winAt b m = true) : RunExists b := by
  have hw0 : 0 < b.width := by
    rcases Nat.eq_zero_or_pos b.width with h0 | h0
    · rw [h0] at hm; omega
    · exact h0
  have hx : m % b.width < b.width := Nat.mod_lt m hw0
  have hm2 : m < b.height * b.width := by
    rw [Nat.mul_comm b.height b.width]; exact hm
  have hy : m / b.width < b.height := (Nat.div_lt_iff_lt_mul hw0).mpr hm2
  have hs : (b.width : ℤ) * ((m / b.width : ℕ) : ℤ) + ((m % b.width : ℕ) : ℤ) = (m : ℤ) := by
    exact_mod_cast Nat.div_add_mod m b.width
  have hpmem : statesGet b.states m ∈ players := by
    rcases hocc with h | h <;> simp [players, h]
  rcases Nat.eq_zero_or_pos b.n_in_row with hn0 | hn0
  · exact ⟨(1, 0), by simp [dirList], m % b.width, List.mem_range.mpr hx,
      m / b.width, List.mem_range.mpr hy, statesGet b.states m, hpmem,
      fun i hi => absurd hi (by simp [hn0])⟩
  unfold winAt at hwin
  rw [Bool.or_eq_true, Bool.or_eq_true, Bool.or_eq_true] at hwin
  rcases hwin with ((hc | hc) | hc) | hc
  · -- horizontal: cells m, m+1, …, m+n-1
    rw [Bool.and_eq_true] at hc
    obtain ⟨hb1, hall⟩ := hc
    have hxb : ((m % b.width : ℕ) : ℤ) ≤ (b.width : ℤ) - (b.n_in_row : ℤ) :=
      of_decide_eq_true hb1
    generalize hxg : m % b.width = x at hx hxb hs
    generalize hyg : m / b.width = y at hy hs
    refine ⟨(1, 0), by simp [dirList], x, List.mem_range.mpr hx,
      y, List.mem_range.mpr hy, statesGet b.states m, hpmem, ?_⟩
    intro i hi
    have hin : i < b.n_in_row := List.mem_range.mp hi
    have hlook := List.all_eq_true.mp hall i hi
    rw [beq_iff_eq] at hlook
    refine ⟨by omega, by omega, by omega, by omega, ?_⟩
    rw [toNat_eq_of _ (m + i)
      (by simp only [Nat.cast_add, Nat.cast_mul]; linear_combination hs)]
    exact hlook
  · -- vertical: cells m, m+width, …, m+(n-1)·width
    rw [Bool.and_eq_true] at hc
    obtain ⟨hb1, hall⟩ := hc
    have hyb : ((m / b.width : ℕ) : ℤ) ≤ (b.height : ℤ) - (b.n_in_row : ℤ) :=
      of_decide_eq_true hb1
    generalize hxg : m % b.width = x at hx hs
    generalize hyg : m / b.width = y at hy hyb hs
    refine ⟨(0, 1), by simp [dirList], x, List.mem_range.mpr hx,
      y, List.mem_range.mpr hy, statesGet b.states m, hpmem, ?_⟩
    intro i hi
    have hin : i < b.n_in_row := List.mem_range.mp hi
    have hlook := List.all_eq_true.mp hall i hi
    rw [beq_iff_eq] at hlook
    refine ⟨by omega, by omega, by omega, by omega, ?_⟩
    rw [toNat_eq_of _ (m + i * b.width)
      (by simp only [Nat.cast_add, Nat.cast_mul]; linear_combination hs)]
    exact hlook
  · -- diagonal: cells m, m+(width+1), …
    rw [Bool.and_eq_true, Bool.and_eq_true] at hc
    obtain ⟨⟨hb1, hb2⟩, hall⟩ := hc
    have hxb : ((m % b.width : ℕ) : ℤ) ≤ (b.width : ℤ) - (b.n_in_row : ℤ) :=
      of_decide_eq_true hb1
    have hyb : ((m / b.width : ℕ) : ℤ) ≤ (b.height : ℤ) - (b.n_in_row : ℤ) :=
      of_decide_eq_true hb2
    generalize hxg : m % b.width = x at hx hxb hs
    generalize hyg : m / b.width = y at hy hyb hs
    refine ⟨(1, 1), by simp [dirList], x, List.mem_range.mpr hx,
      y, List.mem_range.mpr hy, statesGet b.states m, hpmem, ?_⟩
    intro i hi
    have hin : i < b.n_in_row := List.mem_range.mp hi
    have hlook := List.all_eq_true.mp hall i hi
    rw [beq_iff_eq] at hlook
    refine ⟨by omega, by omega, by omega, by omega, ?_⟩
    rw [toNat_eq_of _ (m + i * (b.width + 1))
      (by simp only [Nat.cast_add, Nat.cast_mul]; linear_combination hs)]
    exact hlook
  · -- anti-diagonal: the code scans cells m + j·(width−1) (coordinates
    -- (x−j, y+j)); the same run read in direction (1, −1) starts at
    -- (x−(n−1), y+(n−1)).
    rw [Bool.and_eq_true, Bool.and_eq_true] at hc
    obtain ⟨⟨hb1, hb2⟩, hall⟩ := hc
    have hxb : (b.n_in_row : ℤ) - 1 ≤ ((m % b.width : ℕ) : ℤ) :=
      of_decide_eq_true hb1
    have hyb : ((m / b.width : ℕ) : ℤ) ≤ (b.height : ℤ) - (b.n_in_row : ℤ) :=
      of_decide_eq_true hb2
    generalize hxg : m % b.width = x at hx hxb hs
    generalize hyg : m / b.width = y at hy hyb hs
    have hxge : b.n_in_row - 1 ≤ x := by omega
    have hcx : ((x - (b.n_in_row - 1) : ℕ) : ℤ) =
        (x : ℤ) - ((b.n_in_row : ℤ) - 1) := by omega
    have hcy : ((y + (b.n_in_row - 1) : ℕ) : ℤ) =
        (y : ℤ) + ((b.n_in_row : ℤ) - 1) := by omega
    refine ⟨(1, -1), by simp [dirList],
      x - (b.n_in_row - 1), List.mem_range.mpr (by omega),
      y + (b.n_in_row - 1), List.mem_range.mpr (by omega),
      statesGet b.states m, hpmem, ?_⟩
    intro i hi
    have hin : i < b.n_in_row := List.mem_range.mp hi
    have hjmem : b.n_in_row - 1 - i ∈ List.range b.n_in_row :=
      List.mem_range.mpr (by omega)
    have hlook := List.all_eq_true.mp hall (b.n_in_row - 1 - i) hjmem
    rw [beq_iff_eq] at hlook
    have hcj : ((b.n_in_row - 1 - i : ℕ) : ℤ) = (b.n_in_row : ℤ) - 1 - (i : ℤ) := by
      omega
    have hcw : ((b.width - 1 : ℕ) : ℤ) = (b.width : ℤ) - 1 := by omega
    refine ⟨by rw [hcx]; omega, by rw [hcx]; omega,
      by rw [hcy]; omega, by rw [hcy]; omega, ?_⟩
    rw [toNat_eq_of _ (m + (b.n_in_row - 1 - i) * (b.width - 1))
      (by rw [hcx, hcy]
          simp only [Nat.cast_add, Nat.cast_mul, hcj, hcw]
          linear_combination hs)]
    exact hlook

/-- Claim C9: on a board whose `availables` list is empty, fully owned
by the two players, with no semantic `n_in_row` run and no applicable
forbidden-move violation, `game_end` reports a draw: `(true, -1)`. -/
theorem claim_C9_draw (b : Board)
    (hav : b.availables = [])
    (hfull : ∀ m, m < b.width * b.height →
      statesGet b.states m = 1 ∨ statesGet b.states m = 2)
    (hnorun : ¬ RunExists b)
    (hforb : ¬(b.last_move ≠ -1 ∧ statesGet b.states b.last_move.toNat = 1 ∧
               check_forbidden_move b b.last_move.toNat 1 = true)) :
    game_end b = (true, -1) := by
  have hwinner : has_a_winner b = (false, -1) := by
    unfold has_a_winner
    by_cases hlen : (moved b).length < b.n_in_row
    · rw [if_pos hlen]
    · rw [if_neg hlen]
      have hnone : (moved b).find? (winAt b) = none := by
        rw [List.find?_eq_none]
        intro m hmem hwt
        have hmlt : m < b.width * b.height :=
          List.mem_range.mp (List.mem_filter.mp hmem).1
        exact hnorun (runExists_of_winAt b m hmlt (hfull m hmlt) hwt)
      rw [hnone]
      dsimp only
      by_cases hlm : b.last_move = -1
      · rw [if_neg (not_not_intro hlm)]
      · rw [if_pos hlm]
        by_cases hp1 : statesGet b.states b.last_move.toNat = 1
        · rw [if_pos hp1]
          have hcf : ¬(check_forbidden_move b b.last_move.toNat
              (statesGet b.states b.last_move.toNat) = true) := by
            intro hC
            exact hforb ⟨hlm, hp1, by rwa [hp1] at hC⟩
          rw [if_neg hcf]
        · rw [if_neg hp1]
  unfold game_end
  rw [hwinner]
  dsimp only
  simp [hav]

/-- A completed 3×3 drawn game (`n_in_row = 3`): board
`X X O / O O X / X X O` (cells 0–8), player 1 played cell 7 last. -/
def bDraw : Board :=
  mkBoard 3 3 3
    [(0, 1), (1, 1), (2, 2), (3, 2), (4, 2), (5, 1), (6, 1), (7, 1), (8, 2)]
    2 7 [(7, 1), (8, 2), (6, 1), (4, 2), (5, 1), (3, 2), (1, 1), (2, 2)]

/-- Claim C9 witness: the full 3×3 draw position. -/
theorem claim_C9_witness : game_end bDraw = (true, -1) :=
  claim_C9_draw bDraw (by decide) (by decide) (by decide) (by decide)

/-! ### Exact runs on the 15×15 board (C8, and the amended C1) -/

/-- The linear-index step of each scan direction on a board of width
`w`: horizontal, vertical, diagonal, anti-diagonal. -/
def dirStep (w : ℕ) : Fin 4 → ℕ
  | 0 => 1
  | 1 => w
  | 2 => w + 1
  | 3 => w - 1

/-- The cells of a `k`-stone run starting at column `x`, row `y` in
direction `d` (for the anti-diagonal the start is its rightmost-column
end, matching the code's `m + i·(width−1)` scan). -/
def runCells (w : ℕ) (d : Fin 4) (x y k : ℕ) : List ℕ :=
  (List.range k).map (fun i => y * w + x + i * dirStep w d)

/-- In-bounds condition for a `k`-run at `(x, y)` in direction `d`. -/
def dirBounds (w h : ℕ) (d : Fin 4) (x y k : ℕ) : Prop :=
  match d with
  | 0 => x + k ≤ w ∧ y < h
  | 1 => y + k ≤ h ∧ x < w
  | 2 => x + k ≤ w ∧ y + k ≤ h
  | 3 => k ≤ x + 1 ∧ x < w ∧ y + k ≤ h

theorem runBoard_width (p : ℤ) (cells : List ℕ) (cp lm : ℤ)
    (seq : List (ℤ × ℤ)) : (runBoard p cells cp lm seq).width = 15 := rfl

theorem runBoard_height (p : ℤ) (cells : List ℕ) (cp lm : ℤ)
    (seq : List (ℤ × ℤ)) : (runBoard p cells cp lm seq).height = 15 := rfl

theorem runBoard_n (p : ℤ) (cells : List ℕ) (cp lm : ℤ)
    (seq : List (ℤ × ℤ)) : (runBoard p cells cp lm seq).n_in_row = 5 := rfl

theorem runBoard_states (p : ℤ) (cells : List ℕ) (cp lm : ℤ)
    (seq : List (ℤ × ℤ)) :
    (runBoard p cells cp lm seq).states = cells.map (fun c => (c, p)) := rfl

theorem moved_runBoard (p : ℤ) (cells : List ℕ) (cp lm : ℤ)
    (seq : List (ℤ × ℤ)) :
    moved (runBoard p cells cp lm seq) =
      (List.range (15 * 15)).filter (fun m => cells.contains m) := by
  refine moved_eq_filter _ cells ?_
  show complementAvail (15 * 15) ((cells.map (fun c => (c, p))).map Prod.fst) =
    complementAvail (15 * 15) cells
  have hkeys : (cells.map (fun c => (c, p))).map Prod.fst = cells := by
    induction cells with
    | nil => rfl
    | cons a t ih => simp only [List.map_cons, ih]
  rw [hkeys]

theorem runCells_nodup (d : Fin 4) (x y k : ℕ) : (runCells 15 d x y k).Nodup := by
  have hstep : 0 < dirStep 15 d := by fin_cases d <;> decide
  refine (List.nodup_range k).map ?_
  intro i j hij
  have hij1 : y * 15 + x + i * dirStep 15 d = y * 15 + x + j * dirStep 15 d := hij
  have hij2 : i * dirStep 15 d = j * dirStep 15 d := by omega
  exact Nat.eq_of_mul_eq_mul_right hstep hij2

theorem runCells_lt (d : Fin 4) (x y k : ℕ) (hb : dirBounds 15 15 d x y k) :
    ∀ c ∈ runCells 15 d x y k, c < 15 * 15 := by
  fin_cases d
  · obtain ⟨h1, h2⟩ := hb
    intro c hc
    rcases List.mem_map.mp hc with ⟨i, hi, rfl⟩
    have hik := List.mem_range.mp hi
    simp only [dirStep]
    omega
  · obtain ⟨h1, h2⟩ := hb
    intro c hc
    rcases List.mem_map.mp hc with ⟨i, hi, rfl⟩
    have hik := List.mem_range.mp hi
    simp only [dirStep]
    omega
  · obtain ⟨h1, h2⟩ := hb
    intro c hc
    rcases List.mem_map.mp hc with ⟨i, hi, rfl⟩
    have hik := List.mem_range.mp hi
    simp only [dirStep]
    omega
  · obtain ⟨h1, h2, h3⟩ := hb
    intro c hc
    rcases List.mem_map.mp hc with ⟨i, hi, rfl⟩
    have hik := List.mem_range.mp hi
    simp only [dirStep]
    omega

theorem length_moved_runBoard (p : ℤ) (d : Fin 4) (x y k : ℕ) (cp lm : ℤ)
    (seq : List (ℤ × ℤ)) (hb : dirBounds 15 15 d x y k) :
    (moved (runBoard p (runCells 15 d x y k) cp lm seq)).length = k := by
  rw [moved_runBoard,
    length_filter_range_contains _ _ (runCells_nodup d x y k) (runCells_lt d x y k hb)]
  simp [runCells]

theorem has_a_winner_short (b : Board) (h : (moved b).length < b.n_in_row) :
    has_a_winner b = (false, -1) := by
  unfold has_a_winner
  rw [if_pos h]

theorem winAt_runBoard_start (p : ℤ) (d : Fin 4) (x y k : ℕ) (cp lm : ℤ)
    (seq : List (ℤ × ℤ)) (hk : 5 ≤ k) (hb : dirBounds 15 15 d x y k) :
    winAt (runBoard p (runCells 15 d x y k) cp lm seq) (y * 15 + x) = true := by
  have hcell : ∀ i, i < k →
      statesGet ((runCells 15 d x y k).map (fun c => (c, p)))
        (y * 15 + x + i * dirStep 15 d) = p :=
    fun i hik => statesGet_const_of_mem _ p _
      (List.mem_map.mpr ⟨i, List.mem_range.mpr hik, rfl⟩)
  have hc0 : statesGet ((runCells 15 d x y k).map (fun c => (c, p))) (y * 15 + x) = p := by
    have h0 := hcell 0 (by omega)
    simpa using h0
  fin_cases d
  · -- horizontal
    obtain ⟨hbx, hby⟩ := hb
    have hsx : (y * 15 + x) % 15 = x := by omega
    have hsy : (y * 15 + x) / 15 = y := by omega
    unfold winAt
    simp only [runBoard_width, runBoard_height, runBoard_n, runBoard_states]
    simp only [hsx, hsy]
    rw [Bool.or_eq_true, Bool.or_eq_true, Bool.or_eq_true]
    refine Or.inl (Or.inl (Or.inl ?_))
    rw [Bool.and_eq_true]
    constructor
    · rw [decide_eq_true_eq]
      omega
    · refine all_range_true _ _ (fun i hi => ?_)
      have h1 := hcell i (by omega)
      simp only [dirStep, Nat.mul_one] at h1
      rw [h1, hc0]
      exact beq_self_eq_true p
  · -- vertical
    obtain ⟨hby, hbx⟩ := hb
    have hsx : (y * 15 + x) % 15 = x := by omega
    have hsy : (y * 15 + x) / 15 = y := by omega
    unfold winAt
    simp only [runBoard_width, runBoard_height, runBoard_n, runBoard_states]
    simp only [hsx, hsy]
    rw [Bool.or_eq_true, Bool.or_eq_true, Bool.or_eq_true]
    refine Or.inl (Or.inl (Or.inr ?_))
    rw [Bool.and_eq_true]
    constructor
    · rw [decide_eq_true_eq]
      omega
    · refine all_range_true _ _ (fun i hi => ?_)
      have h1 := hcell i (by omega)
      simp only [dirStep] at h1
      rw [h1, hc0]
      exact beq_self_eq_true p
  · -- diagonal
    obtain ⟨hbx, hby⟩ := hb
    have hsx : (y * 15 + x) % 15 = x := by omega
    have hsy : (y * 15 + x) / 15 = y := by omega
    unfold winAt
    simp only [runBoard_width, runBoard_height, runBoard_n, runBoard_states]
    simp only [hsx, hsy]
    rw [Bool.or_eq_true, Bool.or_eq_true, Bool.or_eq_true]
    refine Or.inl (Or.inr ?_)
    rw [Bool.and_eq_true, Bool.and_eq_true]
    refine ⟨⟨?_, ?_⟩, ?_⟩
    · rw [decide_eq_true_eq]
      omega
    · rw [decide_eq_true_eq]
      omega
    · refine all_range_true _ _ (fun i hi => ?_)
      have h1 := hcell i (by omega)
      simp only [dirStep] at h1
      rw [h1, hc0]
      exact beq_self_eq_true p
  · -- anti-diagonal
    obtain ⟨hbk, hbx, hby⟩ := hb
    have hsx : (y * 15 + x) % 15 = x := by omega
    have hsy : (y * 15 + x) / 15 = y := by omega
    unfold winAt
    simp only [runBoard_width, runBoard_height, runBoard_n, runBoard_states]
    simp only [hsx, hsy]
    rw [Bool.or_eq_true, Bool.or_eq_true, Bool.or_eq_true]
    refine Or.inr ?_
    rw [Bool.and_eq_true, Bool.and_eq_true]
    refine ⟨⟨?_, ?_⟩, ?_⟩
    · rw [decide_eq_true_eq]
      omega
    · rw [decide_eq_true_eq]
      omega
    · refine all_range_true _ _ (fun i hi => ?_)
      have h1 := hcell i (by omega)
      simp only [dirStep] at h1
      rw [h1, hc0]
      exact beq_self_eq_true p

theorem dirBounds_xy (d : Fin 4) (x y k : ℕ) (hk : 1 ≤ k)
    (hb : dirBounds 15 15 d x y k) : x < 15 ∧ y < 15 := by
  fin_cases d
  · obtain ⟨h1, h2⟩ := hb
    omega
  · obtain ⟨h1, h2⟩ := hb
    omega
  · obtain ⟨h1, h2⟩ := hb
    omega
  · obtain ⟨h1, h2, h3⟩ := hb
    omega

/-- On the exact `k`-run boards with `5 ≤ k` the end check reports the
run's owner as winner through the occupied-cell scan. -/
theorem runBoard_wins (p : ℤ) (d : Fin 4) (x y k : ℕ) (cp lm : ℤ)
    (seq : List (ℤ × ℤ)) (hk : 5 ≤ k) (hb : dirBounds 15 15 d x y k) :
    has_a_winner (runBoard p (runCells 15 d x y k) cp lm seq) = (true, p) := by
  obtain ⟨hx15, hy15⟩ := dirBounds_xy d x y k (by omega) hb
  refine has_a_winner_pos _ p ?_ ?_ ?_
  · rw [runBoard_n, length_moved_runBoard p d x y k cp lm seq hb]
    exact hk
  · refine ⟨y * 15 + x, ?_, winAt_runBoard_start p d x y k cp lm seq hk hb⟩
    rw [moved_runBoard]
    refine (mem_filter_range_contains _ _ _).mpr ⟨by omega, ?_⟩
    have h0 : y * 15 + x + 0 * dirStep 15 d ∈ runCells 15 d x y k :=
      List.mem_map.mpr ⟨0, List.mem_range.mpr (by omega), rfl⟩
    simpa using h0
  · intro m hm _
    rw [moved_runBoard] at hm
    exact statesGet_const_of_mem _ p m ((mem_filter_range_contains _ _ _).mp hm).2

/-- Claim C8: on a 15×15 board (`n_in_row = 5`) whose only stones are
one player's unbroken run of exactly five cells in any of the four
directions, `has_a_winner` reports `(true, that player)`; with a run of
exactly four it reports no win `(false, -1)` (only four cells are
occupied, which is below the `n_in_row` scan threshold). -/
theorem claim_C8_exact_runs (p : ℤ) (hp : p = 1 ∨ p = 2) (d : Fin 4) (x y : ℕ)
    (cp lm : ℤ) (seq : List (ℤ × ℤ)) :
    (dirBounds 15 15 d x y 5 →
      has_a_winner (runBoard p (runCells 15 d x y 5) cp lm seq) = (true, p)) ∧
    (dirBounds 15 15 d x y 4 →
      has_a_winner (runBoard p (runCells 15 d x y 4) cp lm seq) = (false, -1)) := by
  constructor
  · exact fun hb => runBoard_wins p d x y 5 cp lm seq (le_refl 5) hb
  · intro hb
    refine has_a_winner_short _ ?_
    rw [runBoard_n, length_moved_runBoard p d x y 4 cp lm seq hb]
    omega

/-- Claim C8 witness: the horizontal five-run at the origin is a win for
player 1; the four-run is not. -/
theorem claim_C8_witness :
    has_a_winner (runBoard 1 (runCells 15 0 0 0 5) 1 (-1) initSeq) = (true, 1) ∧
    has_a_winner (runBoard 1 (runCells 15 0 0 0 4) 1 (-1) initSeq) = (false, -1) :=
  ⟨(claim_C8_exact_runs 1 (Or.inl rfl) 0 0 0 1 (-1) initSeq).1 ⟨by omega, by omega⟩,
   (claim_C8_exact_runs 1 (Or.inl rfl) 0 0 0 1 (-1) initSeq).2 ⟨by omega, by omega⟩⟩

/-- Claim C1 (amended): a board on which the first mover (player 1) has
an overline — `n_in_row + 1 = 6` consecutive own stones — and no other
stones is reported by the end check as a win for PLAYER 1, not player
2: the scan finds the five-run contained in the overline and returns
before the forbidden-move logic (whose overline branch is therefore
unreachable through `has_a_winner`). -/
theorem claim_C1_amended (d : Fin 4) (x y : ℕ) (cp lm : ℤ) (seq : List (ℤ × ℤ))
    (hb : dirBounds 15 15 d x y 6) :
    has_a_winner (runBoard 1 (runCells 15 d x y 6) cp lm seq) = (true, 1) :=
  runBoard_wins 1 d x y 6 cp lm seq (by omega) hb

/-- Claim C1 amended witness: the horizontal overline at the origin. -/
theorem claim_C1_witness :
    has_a_winner (runBoard 1 (runCells 15 0 0 0 6) 2 5 initSeq) = (true, 1) :=
  claim_C1_amended 0 0 0 2 5 initSeq ⟨by omega, by omega⟩

/-! ### The encoder planes (amended C2) -/

/-- Cell `cell` is occupied by the player to move. -/
def occupiedByCurrent (b : Board) (cell : ℕ) : Prop :=
  statesGet b.states cell = b.current_player

/-- Cell `cell` is occupied by the opponent of the player to move. -/
def occupiedByOpponent (b : Board) (cell : ℕ) : Prop :=
  cell ∈ statesKeys b.states ∧ statesGet b.states cell ≠ b.current_player

instance (b : Board) (cell : ℕ) : Decidable (occupiedByCurrent b cell) := by
  unfold occupiedByCurrent
  infer_instance

instance (b : Board) (cell : ℕ) : Decidable (occupiedByOpponent b cell) := by
  unfold occupiedByOpponent
  infer_instance

/-- Entry `i` of the history deque records a real move at `cell`. -/
def histHitB (b : Board) (i cell : ℕ) : Bool :=
  match b.states_sequence.get? i with
  | some e => !(e.2 == -1) && (e.1 == (cell : ℤ))
  | none => false

theorem statesGet_of_mem_nodup (s : List (ℕ × ℤ)) (hnd : (statesKeys s).Nodup)
    (e : ℕ × ℤ) (he : e ∈ s) : statesGet s e.1 = e.2 := by
  induction s with
  | nil => cases he
  | cons a t ih =>
    have hnd2 : (a.1 :: statesKeys t).Nodup := hnd
    have hcons := List.nodup_cons.mp hnd2
    rcases List.mem_cons.mp he with rfl | he2
    · simp [statesGet, List.find?_cons]
    · have hne2 : (a.1 == e.1) = false := by
        rw [beq_eq_false_iff_ne]
        intro hq
        exact hcons.1 (hq ▸ List.mem_map.mpr ⟨e, he2, rfl⟩)
      have ht := ih hcons.2 he2
      simpa [statesGet, List.find?_cons, hne2] using ht

theorem statesGet_not_mem (s : List (ℕ × ℤ)) (m : ℕ)
    (h : m ∉ statesKeys s) : statesGet s m = -1 := by
  unfold statesGet
  have : s.find? (fun e => e.1 == m) = none := by
    rw [List.find?_eq_none]
    intro e he
    simp only [beq_iff_eq]
    intro hq
    exact h (List.mem_map.mpr ⟨e, he, hq⟩)
  rw [this]

theorem mem_currMoves_iff (b : Board) (hnd : (statesKeys b.states).Nodup) (m : ℕ) :
    m ∈ currMoves b ↔ m ∈ statesKeys b.states ∧ statesGet b.states m = b.current_player := by
  unfold currMoves
  constructor
  · intro hm
    rcases List.mem_map.mp hm with ⟨e, hef, rfl⟩
    rcases List.mem_filter.mp hef with ⟨hes, hecp⟩
    rw [beq_iff_eq] at hecp
    exact ⟨List.mem_map.mpr ⟨e, hes, rfl⟩,
      by rw [statesGet_of_mem_nodup b.states hnd e hes, hecp]⟩
  · rintro ⟨hmk, hval⟩
    rcases List.mem_map.mp hmk with ⟨e, hes, rfl⟩
    refine List.mem_map.mpr ⟨e, List.mem_filter.mpr ⟨hes, ?_⟩, rfl⟩
    rw [beq_iff_eq]
    rw [statesGet_of_mem_nodup b.states hnd e hes] at hval
    exact hval

theorem mem_oppoMoves_iff (b : Board) (hnd : (statesKeys b.states).Nodup) (m : ℕ) :
    m ∈ oppoMoves b ↔ m ∈ statesKeys b.states ∧ statesGet b.states m ≠ b.current_player := by
  unfold oppoMoves
  constructor
  · intro hm
    rcases List.mem_map.mp hm with ⟨e, hef, rfl⟩
    rcases List.mem_filter.mp hef with ⟨hes, hecp⟩
    rw [Bool.not_eq_true', beq_eq_false_iff_ne] at hecp
    exact ⟨List.mem_map.mpr ⟨e, hes, rfl⟩,
      by rw [statesGet_of_mem_nodup b.states hnd e hes]; exact hecp⟩
  · rintro ⟨hmk, hval⟩
    rcases List.mem_map.mp hmk with ⟨e, hes, rfl⟩
    refine List.mem_map.mpr ⟨e, List.mem_filter.mpr ⟨hes, ?_⟩, rfl⟩
    rw [Bool.not_eq_true', beq_eq_false_iff_ne]
    rw [statesGet_of_mem_nodup b.states hnd e hes] at hval
    exact hval

theorem div_mk (w r c : ℕ) (hw0 : 0 < w) (hc : c < w) : (r * w + c) / w = r := by
  rw [Nat.mul_comm r w, Nat.mul_add_div hw0, Nat.div_eq_of_lt hc]
  omega

theorem mod_mk (w r c : ℕ) (hc : c < w) : (r * w + c) % w = c := by
  rw [Nat.mul_comm r w, Nat.mul_add_mod, Nat.mod_eq_of_lt hc]

theorem eq_of_divmod (w m r c : ℕ) (h1 : m / w = r) (h2 : m % w = c) :
    m = r * w + c := by
  have h := Nat.div_add_mod m w
  rw [h1, h2, Nat.mul_comm] at h
  omega

theorem entry_current_state (b : Board) (i a c : ℕ)
    (hi : i < feature_planes + 1) (ha : a < b.width) (hc : c < b.height) :
    entry (current_state b) i a c = planeVal b i (b.width - 1 - a) c := by
  unfold entry current_state
  simp [List.getD, List.getElem?_map, List.getElem?_range, hi, ha, hc]

theorem planeBase_eval (b : Board) (hsq : b.width = b.height)
    (i r c : ℕ) (hr : r < b.width) (hc : c < b.height) (hne : b.states ≠ []) :
    planeBase b i r c =
      if i % 2 = 0 then (if (r * b.width + c) ∈ oppoMoves b then 1 else 0)
      else (if (r * b.width + c) ∈ currMoves b then 1 else 0) := by
  have hw0 : 0 < b.width := by omega
  have hcw : c < b.width := by omega
  unfold planeBase
  rw [if_neg (by simpa [List.isEmpty_iff] using hne)]
  by_cases hpar : i % 2 = 0
  · rw [if_pos hpar, if_pos hpar]
    by_cases hmem : (r * b.width + c) ∈ oppoMoves b
    · rw [if_pos hmem, if_pos]
      rw [List.any_eq_true]
      refine ⟨r * b.width + c, hmem, ?_⟩
      rw [Bool.and_eq_true]
      constructor
      · rw [beq_iff_eq]
        exact div_mk b.width r c hw0 hcw
      · rw [beq_iff_eq, ← hsq]
        exact mod_mk b.width r c hcw
    · rw [if_neg hmem, if_neg]
      rw [List.any_eq_true]
      rintro ⟨m, hmo, hmp⟩
      rw [Bool.and_eq_true, beq_iff_eq, beq_iff_eq] at hmp
      obtain ⟨hdiv, hmod⟩ := hmp
      rw [← hsq] at hmod
      rw [eq_of_divmod b.width m r c hdiv hmod] at hmo
      exact hmem hmo
  · rw [if_neg hpar, if_neg hpar]
    by_cases hmem : (r * b.width + c) ∈ currMoves b
    · rw [if_pos hmem, if_pos]
      rw [List.any_eq_true]
      refine ⟨r * b.width + c, hmem, ?_⟩
      rw [Bool.and_eq_true]
      constructor
      · rw [beq_iff_eq]
        exact div_mk b.width r c hw0 hcw
      · rw [beq_iff_eq, ← hsq]
        exact mod_mk b.width r c hcw
    · rw [if_neg hmem, if_neg]
      rw [List.any_eq_true]
      rintro ⟨m, hmo, hmp⟩
      rw [Bool.and_eq_true, beq_iff_eq, beq_iff_eq] at hmp
      obtain ⟨hdiv, hmod⟩ := hmp
      rw [← hsq] at hmod
      rw [eq_of_divmod b.width m r c hdiv hmod] at hmo
      exact hmem hmo

theorem zeroedAt_eval (b : Board) (hsq : b.width = b.height)
    (hlen : b.states_sequence.length = feature_planes)
    (hseqb : ∀ e ∈ b.states_sequence, e.2 ≠ -1 →
      0 ≤ e.1 ∧ e.1 < ((b.width * b.height : ℕ) : ℤ))
    (i r c : ℕ) (hi : i < feature_planes) (hr : r < b.width) (hc : c < b.height) :
    zeroedAt b i r c = true ↔
      ((i = 0 ∨ i = 2 ∨ i = 4) ∧ histHitB b i (r * b.width + c) = true) := by
  have hw0 : 0 < b.width := by omega
  have hcw : c < b.width := by omega
  have hidx : seqZeroIdx b = [0, 2, 4] := by
    unfold seqZeroIdx
    rw [hlen]
    rfl
  unfold zeroedAt
  rw [hidx, List.any_eq_true]
  constructor
  · rintro ⟨j, hj, hcond⟩
    have hj3 : j = 0 ∨ j = 2 ∨ j = 4 := by simpa using hj
    rw [Bool.and_eq_true, beq_iff_eq] at hcond
    obtain ⟨rfl, hrest⟩ := hcond
    cases hget : b.states_sequence.get? j with
    | none => rw [hget] at hrest; cases hrest
    | some e =>
      rw [hget] at hrest
      rw [Bool.and_eq_true, Bool.and_eq_true, Bool.and_eq_true] at hrest
      obtain ⟨⟨⟨hreal, _⟩, hdiv⟩, hmod⟩ := hrest
      rw [Bool.not_eq_true', beq_eq_false_iff_ne] at hreal
      rw [beq_iff_eq] at hdiv hmod
      obtain ⟨hnn, _⟩ := hseqb e (List.get?_mem hget) hreal
      rw [← hsq] at hmod
      have hcell : e.1.toNat = r * b.width + c :=
        eq_of_divmod b.width e.1.toNat r c hdiv hmod
      refine ⟨hj3, ?_⟩
      unfold histHitB
      rw [hget, Bool.and_eq_true]
      constructor
      · rw [Bool.not_eq_true', beq_eq_false_iff_ne]
        exact hreal
      · rw [beq_iff_eq, ← hcell]
        exact (Int.toNat_of_nonneg hnn).symm
  · rintro ⟨hior, hhist⟩
    unfold histHitB at hhist
    cases hget : b.states_sequence.get? i with
    | none => rw [hget] at hhist; cases hhist
    | some e =>
      rw [hget, Bool.and_eq_true] at hhist
      obtain ⟨hreal, hcell⟩ := hhist
      rw [Bool.not_eq_true', beq_eq_false_iff_ne] at hreal
      rw [beq_iff_eq] at hcell
      refine ⟨i, by simpa using hior, ?_⟩
      rw [Bool.and_eq_true, beq_iff_eq]
      refine ⟨rfl, ?_⟩
      rw [hget]
      have htn : e.1.toNat = r * b.width + c := by
        rw [hcell]
        exact Int.toNat_natCast _
      rw [Bool.and_eq_true, Bool.and_eq_true, Bool.and_eq_true]
      refine ⟨⟨⟨?_, ?_⟩, ?_⟩, ?_⟩
      · rw [Bool.not_eq_true', beq_eq_false_iff_ne]
        exact hreal
      · rw [decide_eq_true_eq]
        exact hi
      · rw [beq_iff_eq, htn]
        exact div_mk b.width r c hw0 hcw
      · rw [beq_iff_eq, htn, ← hsq]
        exact mod_mk b.width r c hcw

/-- Claim C2 (amended): for a well-formed square board with at least one
move, the output planes of `current_state` (indexed `(i, a, c)` with
the row flip, so output row `a` shows board cell
`(width−1−a)·width + c`) are: for odd `i`, the full indicator of the
current player's cells; for `i = 6`, the full indicator of the
opponent's cells; and for even `i ∈ {0, 2, 4}`, the opponent indicator
EXCEPT that the cell recorded at position `i` of the move-history deque
(the `(i+1)`-th most recent move, when real) is forced to `0` — so the
even planes 0, 2, 4 are NOT the full opponent occupancy as originally
claimed. -/
theorem claim_C2_planes (b : Board)
    (hsq : b.width = b.height)
    (hnd : (statesKeys b.states).Nodup)
    (hkeys : ∀ m ∈ statesKeys b.states, m < b.width * b.height)
    (hcp : b.current_player = 1 ∨ b.current_player = 2)
    (hlen : b.states_sequence.length = feature_planes)
    (hseqb : ∀ e ∈ b.states_sequence, e.2 ≠ -1 →
      0 ≤ e.1 ∧ e.1 < ((b.width * b.height : ℕ) : ℤ))
    (hne : b.states ≠ [])
    (i a c : ℕ) (hi : i < feature_planes) (ha : a < b.width) (hc : c < b.height) :
    (i % 2 = 1 → entry (current_state b) i a c =
      (if occupiedByCurrent b ((b.width - 1 - a) * b.width + c) then 1 else 0)) ∧
    (i = 6 → entry (current_state b) i a c =
      (if occupiedByOpponent b ((b.width - 1 - a) * b.width + c) then 1 else 0)) ∧
    (i % 2 = 0 → i ≤ 4 → entry (current_state b) i a c =
      (if histHitB b i ((b.width - 1 - a) * b.width + c) then 0
       else if occupiedByOpponent b ((b.width - 1 - a) * b.width + c) then 1 else 0)) := by
  have hr : b.width - 1 - a < b.width := by omega
  have hentry := entry_current_state b i a c (by omega) ha hc
  have hbase := planeBase_eval b hsq i (b.width - 1 - a) c hr hc hne
  have hzer := zeroedAt_eval b hsq hlen hseqb i (b.width - 1 - a) c hi hr hc
  have hcurr := mem_currMoves_iff b hnd ((b.width - 1 - a) * b.width + c)
  have hoppo := mem_oppoMoves_iff b hnd ((b.width - 1 - a) * b.width + c)
  have hple : i ≠ feature_planes := by omega
  refine ⟨?_, ?_, ?_⟩
  · intro hodd
    rw [hentry]
    unfold planeVal
    rw [if_neg hple]
    have hzf : ¬(zeroedAt b i (b.width - 1 - a) c = true) := by
      rw [hzer]
      rintro ⟨h024, _⟩
      omega
    rw [if_neg hzf, hbase, if_neg (by omega : ¬(i % 2 = 0))]
    by_cases hoc : occupiedByCurrent b ((b.width - 1 - a) * b.width + c)
    · rw [if_pos hoc, if_pos]
      rw [hcurr]
      refine ⟨?_, hoc⟩
      unfold occupiedByCurrent at hoc
      by_contra hnm
      rw [statesGet_not_mem _ _ hnm] at hoc
      rcases hcp with h | h <;> omega
    · rw [if_neg hoc, if_neg]
      rw [hcurr]
      rintro ⟨_, hval⟩
      exact hoc hval
  · rintro rfl
    rw [hentry]
    unfold planeVal
    rw [if_neg hple]
    have hzf : ¬(zeroedAt b 6 (b.width - 1 - a) c = true) := by
      rw [hzer]
      rintro ⟨h024, _⟩
      omega
    rw [if_neg hzf, hbase, if_pos (by norm_num)]
    by_cases hoc : occupiedByOpponent b ((b.width - 1 - a) * b.width + c)
    · rw [if_pos hoc, if_pos]
      rw [hoppo]
      exact hoc
    · rw [if_neg hoc, if_neg]
      rw [hoppo]
      exact hoc
  · intro heven hle4
    rw [hentry]
    unfold planeVal
    rw [if_neg hple]
    by_cases hh : histHitB b i ((b.width - 1 - a) * b.width + c) = true
    · rw [if_pos ?_, if_pos hh]
      rw [hzer]
      exact ⟨by omega, hh⟩
    · rw [if_neg ?_, hbase, if_pos heven, if_neg hh]
      swap
      · rw [hzer]
        rintro ⟨_, hcontra⟩
        exact hh hcontra
      by_cases hoc : occupiedByOpponent b ((b.width - 1 - a) * b.width + c)
      · rw [if_pos hoc, if_pos]
        rw [hoppo]
        exact hoc
      · rw [if_neg hoc, if_neg]
        rw [hoppo]
        exact hoc

/-- Claim C2 amended witness: plane 6 of `bC2` is the full opponent
indicator at the flipped position of cell 0. -/
theorem claim_C2_witness :
    entry (current_state bC2) 6 14 0 =
      (if occupiedByOpponent bC2 ((bC2.width - 1 - 14) * bC2.width + 0) then 1 else 0) :=
  (claim_C2_planes bC2 rfl (by decide) (by decide) (Or.inr rfl) (by decide) (by decide)
    (by decide) 6 14 0 (by decide) (by decide) (by decide)).2.1 rfl

end AlphaZeroGomoku
